import Mathlib

/-!
Verification of the streaming subtitle generator.

The embedding models, over lists of characters:
  - the streaming response loop of generateSubtitles (services/geminiService.ts):
    a growing text buffer, newline scanning (indexOf / slice), per line
    trimming, JSON parsing with four-field type validation, and the
    onProgress callback, plus the final non-newline-terminated flush and the
    transport-failure catch;
  - a JSON value type and an executable recursive-descent parser modelling
    the behaviour of JSON.parse on the whole line (numbers are kept exactly
    as mantissa times a power of ten; unpaired surrogate escapes map to the
    replacement character; these corners are never exercised by the claims);
  - the SRT assembly of App.tsx: the onProgress handler appends
    id, startTime --> endTime, text and a blank line to the accumulated
    content, and the download handler trims the result;
  - the orchestrator state of App.tsx (srtContent, isLoading,
    loadingMessage, error, progress) across a generation run, where the
    success path is taken at its settled state after the scheduled reset.
-/

set_option linter.unusedVariables false

/-! ### Character and whitespace utilities -/

/-- Whitespace removed by the JavaScript string trim method (the
characters that can actually occur in this system's data). -/
def isJsWs (c : Char) : Bool :=
  c = ' ' || c = '\t' || c = '\n' || c = '\r' || c = '\x0b' || c = '\x0c'

/-- Drop trailing whitespace, as in trimming only the right end. -/
def trimEnd (s : List Char) : List Char :=
  (s.reverse.dropWhile isJsWs).reverse

/-- The JavaScript string trim method: drop leading and trailing whitespace. -/
def trimChars (s : List Char) : List Char :=
  trimEnd (s.dropWhile isJsWs)

/-- Whitespace accepted between tokens by JSON.parse (the JSON grammar). -/
def isJsonWs (c : Char) : Bool :=
  c = ' ' || c = '\t' || c = '\n' || c = '\r'

/-- Skip JSON token whitespace. -/
def skipJsonWs : List Char → List Char
  | [] => []
  | c :: cs => if isJsonWs c then skipJsonWs cs else c :: cs

/-! ### The JSON value model -/

/-- JSON values as produced by JSON.parse.  A number is kept exactly as
mantissa times ten to the power exp, which is enough to decide the typeof
checks and to print the small integers occurring as subtitle ids. -/
inductive Json where
  | null : Json
  | bool (b : Bool) : Json
  | num (mant : Int) (exp : Int) : Json
  | str (s : List Char) : Json
  | arr (elems : List Json) : Json
  | obj (fields : List (List Char × Json)) : Json

/-! ### JSON parsing, modelling JSON.parse -/

/-- Numeric value of a decimal digit character. -/
def digitVal? (c : Char) : Option Nat :=
  if '0' ≤ c && c ≤ '9' then some (c.toNat - 48) else none

/-- Numeric value of a hexadecimal digit character. -/
def hexDigitVal? (c : Char) : Option Nat :=
  if '0' ≤ c && c ≤ '9' then some (c.toNat - 48)
  else if 'a' ≤ c && c ≤ 'f' then some (c.toNat - 87)
  else if 'A' ≤ c && c ≤ 'F' then some (c.toNat - 55)
  else none

/-- Take a maximal run of decimal digits. -/
def takeDigits : List Char → List Nat × List Char
  | [] => ([], [])
  | c :: cs =>
    match digitVal? c with
    | some d => let p := takeDigits cs; (d :: p.1, p.2)
    | none => ([], c :: cs)

/-- Value of a digit run read most significant first. -/
def digitsToNat (ds : List Nat) : Nat :=
  ds.foldl (fun a d => a * 10 + d) 0

/-- Read four hexadecimal digits. -/
def hex4? : List Char → Option (Nat × List Char)
  | a :: b :: c :: d :: r =>
    match hexDigitVal? a, hexDigitVal? b, hexDigitVal? c, hexDigitVal? d with
    | some ha, some hb, some hc, some hd =>
      some (((ha * 16 + hb) * 16 + hc) * 16 + hd, r)
    | _, _, _, _ => none
  | _ => none

/-- Finish a number after the mantissa digits: optional exponent part.
The numeric value is mant times ten to the power (exponent - fracLen). -/
def finishExp (mant : Int) (fracLen : Nat) (r : List Char) : Option (Json × List Char) :=
  let p : Int × List Char :=
    match r with
    | '+' :: t => (1, t)
    | '-' :: t => (-1, t)
    | _ => (1, r)
  match takeDigits p.2 with
  | ([], _) => none
  | (ds, r2) => some (.num mant (-(fracLen : Int) + p.1 * (digitsToNat ds : Int)), r2)

/-- Finish a number after integer and fraction digits. -/
def finishNumber (neg : Bool) (mantNat : Nat) (fracLen : Nat) (rest : List Char) :
    Option (Json × List Char) :=
  let mant : Int := if neg then -(mantNat : Int) else (mantNat : Int)
  match rest with
  | 'e' :: r => finishExp mant fracLen r
  | 'E' :: r => finishExp mant fracLen r
  | _ => some (.num mant (-(fracLen : Int)), rest)

/-- Parse a JSON number token following the JSON grammar (leading zero only
alone, fraction and exponent digits required where present). -/
def parseNumber (cs : List Char) : Option (Json × List Char) :=
  let p : Bool × List Char :=
    match cs with
    | '-' :: r => (true, r)
    | _ => (false, cs)
  match p.2 with
  | [] => none
  | c :: r =>
    if c = '0' then
      match r with
      | '.' :: r2 =>
        match takeDigits r2 with
        | ([], _) => none
        | (fs, r3) => finishNumber p.1 (digitsToNat fs) fs.length r3
      | _ => finishNumber p.1 0 0 r
    else
      match digitVal? c with
      | none => none
      | some d =>
        let q := takeDigits r
        let intVal := digitsToNat (d :: q.1)
        match q.2 with
        | '.' :: r2 =>
          match takeDigits r2 with
          | ([], _) => none
          | (fs, r3) => finishNumber p.1 (intVal * 10 ^ fs.length + digitsToNat fs) fs.length r3
        | _ => finishNumber p.1 intVal 0 q.2

/-- Parse the remainder of a JSON string after the opening quote.  Fuel is
at least one more than the remaining input, so it never runs out.  An
unpaired surrogate escape becomes the replacement character. -/
def parseStringAux : Nat → List Char → List Char → Option (List Char × List Char)
  | 0, _, _ => none
  | _ + 1, [], _ => none
  | f + 1, c :: cs, acc =>
    if c = '"' then some (acc.reverse, cs)
    else if c = '\\' then
      match cs with
      | [] => none
      | e :: cs2 =>
        if e = '"' then parseStringAux f cs2 ('"' :: acc)
        else if e = '\\' then parseStringAux f cs2 ('\\' :: acc)
        else if e = '/' then parseStringAux f cs2 ('/' :: acc)
        else if e = 'b' then parseStringAux f cs2 ('\x08' :: acc)
        else if e = 'f' then parseStringAux f cs2 ('\x0c' :: acc)
        else if e = 'n' then parseStringAux f cs2 ('\n' :: acc)
        else if e = 'r' then parseStringAux f cs2 ('\r' :: acc)
        else if e = 't' then parseStringAux f cs2 ('\t' :: acc)
        else if e = 'u' then
          match hex4? cs2 with
          | none => none
          | some (code, cs3) =>
            if 0xD800 ≤ code && code ≤ 0xDBFF then
              match cs3 with
              | '\\' :: 'u' :: rest2 =>
                match hex4? rest2 with
                | some (code2, cs4) =>
                  if 0xDC00 ≤ code2 && code2 ≤ 0xDFFF then
                    parseStringAux f cs4
                      (Char.ofNat (0x10000 + (code - 0xD800) * 0x400 + (code2 - 0xDC00)) :: acc)
                  else parseStringAux f cs3 ('�' :: acc)
                | none => parseStringAux f cs3 ('�' :: acc)
              | _ => parseStringAux f cs3 ('�' :: acc)
            else if 0xDC00 ≤ code && code ≤ 0xDFFF then
              parseStringAux f cs3 ('�' :: acc)
            else
              parseStringAux f cs3 (Char.ofNat code :: acc)
        else none
    else if c.toNat < 32 then none
    else parseStringAux f cs (c :: acc)

/-- Parse a JSON string body after the opening quote. -/
def parseStringRest (cs : List Char) : Option (List Char × List Char) :=
  parseStringAux (cs.length + 1) cs []

mutual

/-- Parse one JSON value.  Fuel bounds nesting plus element counts; the
top-level entry supplies more than the input length, which is ample. -/
def parseValue : Nat → List Char → Option (Json × List Char)
  | 0, _ => none
  | f + 1, cs =>
    match skipJsonWs cs with
    | 'n' :: 'u' :: 'l' :: 'l' :: r => some (.null, r)
    | 't' :: 'r' :: 'u' :: 'e' :: r => some (.bool true, r)
    | 'f' :: 'a' :: 'l' :: 's' :: 'e' :: r => some (.bool false, r)
    | '"' :: r =>
      match parseStringRest r with
      | some (s, r2) => some (.str s, r2)
      | none => none
    | '[' :: r =>
      match skipJsonWs r with
      | ']' :: r2 => some (.arr [], r2)
      | _ => parseItems f r []
    | '{' :: r =>
      match skipJsonWs r with
      | '}' :: r2 => some (.obj [], r2)
      | _ => parseMembers f r []
    | cs2 => parseNumber cs2

/-- Parse the elements of a non-empty JSON array, after the opening
bracket or a comma. -/
def parseItems : Nat → List Char → List Json → Option (Json × List Char)
  | 0, _, _ => none
  | f + 1, cs, acc =>
    match parseValue f cs with
    | some (v, r) =>
      match skipJsonWs r with
      | ',' :: r2 => parseItems f r2 (v :: acc)
      | ']' :: r2 => some (.arr (v :: acc).reverse, r2)
      | _ => none
    | none => none

/-- Parse the members of a non-empty JSON object, after the opening brace
or a comma. -/
def parseMembers : Nat → List Char → List (List Char × Json) →
    Option (Json × List Char)
  | 0, _, _ => none
  | f + 1, cs, acc =>
    match skipJsonWs cs with
    | '"' :: r =>
      match parseStringRest r with
      | some (k, r1) =>
        match skipJsonWs r1 with
        | ':' :: r2 =>
          match parseValue f r2 with
          | some (v, r3) =>
            match skipJsonWs r3 with
            | ',' :: r4 => parseMembers f r4 ((k, v) :: acc)
            | '}' :: r4 => some (.obj ((k, v) :: acc).reverse, r4)
            | _ => none
          | none => none
        | _ => none
      | none => none
    | _ => none

end

/-- JSON.parse on a whole text: one value, then only whitespace may remain;
anything else throws, modelled as none. -/
def parseJsonText (s : List Char) : Option Json :=
  match parseValue (2 * s.length + 2) s with
  | some (j, rest) => if skipJsonWs rest = [] then some j else none
  | none => none

/-! ### Property access and the four-field validation -/

/-- Look up an object member; as in JavaScript, a later duplicate key wins. -/
def lookupField : List (List Char × Json) → List Char → Option Json
  | [], _ => none
  | p :: ps, k =>
    match lookupField ps k with
    | some v => some v
    | none => if p.1 = k then some p.2 else none

/-- Property access parsed.key of the code.  On a non-object value the
typeof test cannot see a number or string (on null the access throws, which
the surrounding try absorbs exactly like a failed validation), so every
non-object case yields none. -/
def jsonGet : Json → List Char → Option Json
  | .obj fs, k => lookupField fs k
  | _, _ => none

/-- The check typeof parsed.key === 'number' of the source. -/
def typeofNumber : Option Json → Bool
  | some (.num _ _) => true
  | _ => false

/-- The check typeof parsed.key === 'string' of the source. -/
def typeofString : Option Json → Bool
  | some (.str _) => true
  | _ => false

/-- The basic validation of generateSubtitles: id numeric and the three
string fields present with string type. -/
def isValidBlock (j : Json) : Bool :=
  typeofNumber (jsonGet j "id".data) &&
  typeofString (jsonGet j "startTime".data) &&
  typeofString (jsonGet j "endTime".data) &&
  typeofString (jsonGet j "text".data)

/-! ### The per-line handler and the buffering loop -/

/-- The body executed for one extracted line slice: trim it, skip it when
empty, otherwise parse it as JSON and forward it only when the four-field
validation passes.  Parse failures and validation failures both yield no
callback invocation (the source logs a warning and continues). -/
def processLine (raw : List Char) : Option Json :=
  if trimChars raw = [] then none
  else
    match parseJsonText (trimChars raw) with
    | some parsed => if isValidBlock parsed then some parsed else none
    | none => none

/-- Split the buffer at the first newline, as buffer.indexOf of a newline
followed by the two slice calls: some (before, after) or none. -/
def splitAtNewline : List Char → Option (List Char × List Char)
  | [] => none
  | c :: cs =>
    if c = '\n' then some ([], cs)
    else
      match splitAtNewline cs with
      | some (l, r) => some (c :: l, r)
      | none => none

/-- The inner while loop of generateSubtitles: repeatedly extract the slice
before the first newline, run the per-line handler, and continue on the
remainder.  Fuel makes the recursion structural; one more than the buffer
length always suffices because each round removes at least the newline. -/
def processBufferFuel : Nat → List Char → List Json × List Char
  | 0, buf => ([], buf)
  | f + 1, buf =>
    match splitAtNewline buf with
    | none => ([], buf)
    | some (l, r) =>
      let p := processBufferFuel f r
      ((processLine l).toList ++ p.1, p.2)

/-- The inner while loop at sufficient fuel: emitted blocks in order and
the remaining (newline-free) buffer. -/
def processBuffer (buf : List Char) : List Json × List Char :=
  processBufferFuel (buf.length + 1) buf

/-- The chunk loop of generateSubtitles: append each arriving chunk to the
buffer and drain complete lines, threading the buffer through. -/
def runChunks (buf : List Char) : List (List Char) → List Json × List Char
  | [] => ([], buf)
  | c :: cs =>
    let p := processBuffer (buf ++ c)
    let q := runChunks p.2 cs
    (p.1 ++ q.1, q.2)

/-- Every block handed to onProgress by generateSubtitles for a stream of
chunks: the chunk loop from an empty buffer, then the final flush that
applies the same trim-parse-validate-dispatch logic to the leftover buffer
once. -/
def generateEmitted (chunks : List (List Char)) : List Json :=
  (runChunks [] chunks).1 ++ (processLine (runChunks [] chunks).2).toList

/-! ### Rendering numbers and blocks, as the App.tsx template literal -/

/-- One decimal digit as a character. -/
def digitChar : Nat → Char
  | 0 => '0'
  | 1 => '1'
  | 2 => '2'
  | 3 => '3'
  | 4 => '4'
  | 5 => '5'
  | 6 => '6'
  | 7 => '7'
  | 8 => '8'
  | 9 => '9'
  | _ => '*'

/-- Decimal digits of a natural number, most significant first.  Fuel is at
least one more than needed, so the accumulator is always completed. -/
def natDigitsAux : Nat → Nat → List Char → List Char
  | 0, _, acc => acc
  | f + 1, n, acc =>
    if n < 10 then digitChar n :: acc
    else natDigitsAux f (n / 10) (digitChar (n % 10) :: acc)

/-- Decimal digits of a natural number. -/
def natToDigits (n : Nat) : List Char :=
  natDigitsAux (n + 1) n []

/-- Remove factors of ten from the mantissa into the exponent, so that the
printed form matches the normalised JavaScript number. -/
def normNum : Nat → Nat → Int → Nat × Int
  | 0, m, e => (m, e)
  | f + 1, m, e =>
    if m % 10 = 0 ∧ m ≠ 0 then normNum f (m / 10) (e + 1) else (m, e)

/-- Decimal rendering of the magnitude m times ten to the power e, for a
normalised positive m: plain digits when e is not negative, otherwise the
digits with a decimal point inserted (padding with zeros below one). -/
def numBody (m : Nat) (e : Int) : List Char :=
  if 0 ≤ e then natToDigits (m * 10 ^ e.toNat)
  else if (-e).toNat < (natToDigits m).length then
    (natToDigits m).take ((natToDigits m).length - (-e).toNat) ++
      '.' :: (natToDigits m).drop ((natToDigits m).length - (-e).toNat)
  else
    '0' :: '.' ::
      (List.replicate ((-e).toNat - (natToDigits m).length) '0' ++ natToDigits m)

/-- The JavaScript string conversion of a number value mant times ten to
the power exp, for the plain decimal range (the exponent-notation switch of
very large or very small magnitudes is outside every claim; negative zero
prints as 0 as in JavaScript). -/
def numToString (mant : Int) (exp : Int) : List Char :=
  if mant = 0 then ['0']
  else if mant < 0 then
    '-' :: numBody (normNum mant.natAbs mant.natAbs exp).1
      (normNum mant.natAbs mant.natAbs exp).2
  else
    numBody (normNum mant.natAbs mant.natAbs exp).1
      (normNum mant.natAbs mant.natAbs exp).2

/-- Interpolation of one property into the template literal of the
onProgress handler in App.tsx.  Delivered blocks always have the accessed
fields with the validated types; the remaining cases mirror JavaScript
string conversion where it is representable (an array would join its
elements, but never reaches this point). -/
def jsDisplay : Option Json → List Char
  | some (.num m e) => numToString m e
  | some (.str s) => s
  | some (.bool true) => "true".data
  | some (.bool false) => "false".data
  | some .null => "null".data
  | some (.arr _) => []
  | some (.obj _) => "[object Object]".data
  | none => "undefined".data

/-- The srtBlock template of the onProgress handler in App.tsx: the id, a
newline, the time range joined by an arrow, a newline, the text, and a
blank line. -/
def srtBlock (b : Json) : List Char :=
  jsDisplay (jsonGet b "id".data) ++ "\n".data ++
  jsDisplay (jsonGet b "startTime".data) ++ " --> ".data ++
  jsDisplay (jsonGet b "endTime".data) ++ "\n".data ++
  jsDisplay (jsonGet b "text".data) ++ "\n\n".data

/-- One onProgress invocation: append the formatted block to the previous
accumulated content (the functional state update prev + srtBlock). -/
def appendBlock (prev : List Char) (b : Json) : List Char :=
  prev ++ srtBlock b

/-- The accumulated subtitle text after a sequence of delivered blocks,
starting from the empty content of a fresh run. -/
def assemble (bs : List Json) : List Char :=
  bs.foldl appendBlock []

/-- The handleDownloadClick export: nothing when the content is empty,
otherwise the content trimmed. -/
def handleDownload (srt : List Char) : Option (List Char) :=
  if srt.isEmpty then none else some (trimChars srt)

/-! ### The generation run and the orchestrator state of App.tsx -/

/-- Outcome of the model transport: either the stream completes after
delivering its chunks, or it fails (at the initial request or mid-stream)
after some chunks were already processed. -/
inductive StreamOutcome where
  | ok (chunks : List (List Char)) : StreamOutcome
  | fail (chunks : List (List Char)) : StreamOutcome

/-- The single generic failure generateSubtitles throws from its catch. -/
def serviceFailureMsg : List Char :=
  "Failed to communicate with the AI model.".data

/-- The generic error message set by the catch of handleGenerateClick. -/
def appFailureMsg : List Char :=
  "Failed to generate subtitles. Please check the files and try again.".data

/-- generateSubtitles as observed by its caller: the blocks delivered to
onProgress, and either normal completion or the one generic error.  On a
transport failure the loop stops where the stream stopped: the chunks seen
so far were drained, the final flush never runs, delivered blocks stay
delivered. -/
def generateSubtitlesRun : StreamOutcome → List Json × Except (List Char) Unit
  | .ok cs => (generateEmitted cs, .ok ())
  | .fail cs => ((runChunks [] cs).1, .error serviceFailureMsg)

/-- Orchestrator state of App.tsx relevant to a generation run. -/
structure AppState where
  srtContent : List Char
  isLoading : Bool
  loadingMessage : List Char
  error : Option (List Char)
  progress : Nat

/-- State right before the stream is consumed: handleGenerateClick cleared
content and error, and the last pre-stream checkpoints set the generating
message at fifty percent. -/
def startRunState : AppState :=
  { srtContent := []
    isLoading := true
    loadingMessage := "Generating synchronized subtitles...".data
    error := none
    progress := 50 }

/-- One onProgress delivery as a state update: only srtContent grows. -/
def applyBlock (s : AppState) (b : Json) : AppState :=
  { s with srtContent := s.srtContent ++ srtBlock b }

/-- The success path at its settled state: the success message and full bar
are shown transiently, then the scheduled reset clears loading state. -/
def applySuccess (s : AppState) : AppState :=
  { s with isLoading := false, loadingMessage := [], progress := 0 }

/-- The catch of handleGenerateClick: set the generic error, stop loading,
clear the message, reset the bar; the accumulated content is not touched. -/
def applyFailure (s : AppState) : AppState :=
  { s with
    error := some appFailureMsg
    isLoading := false
    loadingMessage := []
    progress := 0 }

/-- A whole generation run of handleGenerateClick over a stream outcome:
every delivered block is applied in order, then the success or failure
transition. -/
def runGenerate (o : StreamOutcome) : AppState :=
  match generateSubtitlesRun o with
  | (blocks, .ok _) => applySuccess (blocks.foldl applyBlock startRunState)
  | (blocks, .error _) => applyFailure (blocks.foldl applyBlock startRunState)

/-- The download button of App.tsx is rendered exactly when there is
content and no load in progress. -/
def downloadVisible (s : AppState) : Bool :=
  !s.srtContent.isEmpty && !s.isLoading

/-! ### Reference segmentation of a text into newline-separated lines -/

/-- All newline-separated segments of a text, boundaries included: a text
with n newlines has n + 1 segments, the last one being the part after the
final newline (possibly empty). -/
def splitOnNl : List Char → List (List Char)
  | [] => [[]]
  | c :: cs =>
    if c = '\n' then [] :: splitOnNl cs
    else
      match splitOnNl cs with
      | [] => [[c]]
      | s :: ss => (c :: s) :: ss

/-- All segments except the last: the lines the inner loop extracts. -/
def initSegs : List (List Char) → List (List Char)
  | [] => []
  | [_] => []
  | s :: t :: ss => s :: initSegs (t :: ss)

/-- The last segment: what remains in the buffer after the inner loop. -/
def lastSeg : List (List Char) → List Char
  | [] => []
  | [s] => s
  | _ :: t :: ss => lastSeg (t :: ss)

theorem splitOnNl_ne_nil (s : List Char) : splitOnNl s ≠ [] := by
  match s with
  | [] => simp [splitOnNl]
  | c :: cs =>
    simp only [splitOnNl]
    split
    · simp
    · split <;> simp

theorem initSegs_append_lastSeg (ss : List (List Char)) (h : ss ≠ []) :
    initSegs ss ++ [lastSeg ss] = ss := by
  match ss with
  | [] => exact absurd rfl h
  | [s] => rfl
  | s :: t :: rest =>
    have := initSegs_append_lastSeg (t :: rest) (by simp)
    simp only [initSegs, lastSeg, List.cons_append, this]

/-! ### Facts about splitting at the first newline -/

theorem splitAtNewline_none {buf : List Char} (h : splitAtNewline buf = none) :
    '\n' ∉ buf := by
  induction buf with
  | nil => simp
  | cons c cs ih =>
    simp only [splitAtNewline] at h
    by_cases hc : c = '\n'
    · simp [hc] at h
    · simp only [hc, if_false] at h
      match hs : splitAtNewline cs with
      | some (l, r) => rw [hs] at h; simp at h
      | none =>
        intro hm
        rcases List.mem_cons.mp hm with h1 | h2
        · exact hc h1.symm
        · exact ih hs h2

theorem splitAtNewline_of_not_mem {buf : List Char} (h : '\n' ∉ buf) :
    splitAtNewline buf = none := by
  induction buf with
  | nil => rfl
  | cons c cs ih =>
    simp only [List.mem_cons, not_or] at h
    simp only [splitAtNewline]
    rw [if_neg (fun hc => h.1 hc.symm), ih h.2]

theorem splitAtNewline_some {buf l r : List Char}
    (h : splitAtNewline buf = some (l, r)) :
    buf = l ++ '\n' :: r ∧ '\n' ∉ l := by
  induction buf generalizing l r with
  | nil => simp [splitAtNewline] at h
  | cons c cs ih =>
    simp only [splitAtNewline] at h
    by_cases hc : c = '\n'
    · simp only [hc, if_true] at h
      obtain ⟨hl, hr⟩ := Prod.mk.injEq .. ▸ (Option.some.injEq .. ▸ h)
      subst hl; subst hr
      simp [hc]
    · simp only [hc, if_false] at h
      match hs : splitAtNewline cs with
      | none => rw [hs] at h; simp at h
      | some (l2, r2) =>
        rw [hs] at h
        simp only [Option.some.injEq, Prod.mk.injEq] at h
        obtain ⟨hl, hr⟩ := h
        obtain ⟨hcs, hmem⟩ := ih hs
        subst hr
        constructor
        · rw [← hl]; simp [hcs]
        · rw [← hl]
          intro hm
          rcases List.mem_cons.mp hm with h1 | h2
          · exact hc h1.symm
          · exact hmem h2

theorem splitAtNewline_append {l z : List Char} (h : '\n' ∉ l) :
    splitAtNewline (l ++ '\n' :: z) = some (l, z) := by
  induction l with
  | nil => simp [splitAtNewline]
  | cons c cs ih =>
    simp only [List.mem_cons, not_or] at h
    simp only [List.cons_append, splitAtNewline]
    rw [if_neg (fun hc => h.1 hc.symm)]
    rw [show cs.append ('\n' :: z) = cs ++ '\n' :: z from rfl, ih h.2]

theorem splitAtNewline_length {buf l r : List Char}
    (h : splitAtNewline buf = some (l, r)) : r.length < buf.length := by
  obtain ⟨hb, _⟩ := splitAtNewline_some h
  subst hb
  simp only [List.length_append, List.length_cons]
  omega

/-! ### The inner loop at sufficient fuel -/

theorem processBufferFuel_fuel_irrel :
    ∀ f g buf, buf.length < f → buf.length < g →
      processBufferFuel f buf = processBufferFuel g buf := by
  intro f
  induction f with
  | zero => intro g buf h; omega
  | succ f ih =>
    intro g buf hf hg
    match g, hg with
    | g + 1, _ =>
      simp only [processBufferFuel]
      match hs : splitAtNewline buf with
      | none => rfl
      | some (l, r) =>
        have hlen := splitAtNewline_length hs
        dsimp only
        rw [ih g r (by omega) (by omega)]

theorem processBuffer_eq_none {buf : List Char}
    (h : splitAtNewline buf = none) : processBuffer buf = ([], buf) := by
  simp [processBuffer, processBufferFuel, h]

theorem processBuffer_eq_some {buf l r : List Char}
    (h : splitAtNewline buf = some (l, r)) :
    processBuffer buf =
      ((processLine l).toList ++ (processBuffer r).1, (processBuffer r).2) := by
  have hlen := splitAtNewline_length h
  have h1 : processBuffer buf
      = ((processLine l).toList ++ (processBufferFuel buf.length r).1,
         (processBufferFuel buf.length r).2) := by
    simp only [processBuffer, processBufferFuel, h]
  rw [h1, processBufferFuel_fuel_irrel buf.length (r.length + 1) r (by omega) (by omega)]
  rfl

/-! ### Segmentation facts -/

theorem splitOnNl_not_mem {buf : List Char} (h : '\n' ∉ buf) :
    splitOnNl buf = [buf] := by
  induction buf with
  | nil => rfl
  | cons c cs ih =>
    simp only [List.mem_cons, not_or] at h
    simp only [splitOnNl]
    rw [if_neg (fun hc => h.1 hc.symm), ih h.2]

theorem splitOnNl_line {l r : List Char} (h : '\n' ∉ l) :
    splitOnNl (l ++ '\n' :: r) = l :: splitOnNl r := by
  induction l with
  | nil => simp [splitOnNl]
  | cons c cs ih =>
    simp only [List.mem_cons, not_or] at h
    simp only [List.cons_append, splitOnNl]
    rw [if_neg (fun hc => h.1 hc.symm)]
    rw [show (cs.append ('\n' :: r)) = cs ++ '\n' :: r from rfl, ih h.2]

/-- The inner while loop extracts exactly the complete lines of the buffer
in order, each handed to the per-line handler, and leaves the last
(newline-free) segment as the new buffer. -/
theorem processBuffer_splits (buf : List Char) :
    processBuffer buf =
      ((initSegs (splitOnNl buf)).filterMap processLine, lastSeg (splitOnNl buf)) := by
  have H : ∀ n buf, List.length buf ≤ n → processBuffer buf =
      ((initSegs (splitOnNl buf)).filterMap processLine, lastSeg (splitOnNl buf)) := by
    intro n
    induction n with
    | zero =>
      intro buf hb
      have : buf = [] := List.length_eq_zero.mp (Nat.le_zero.mp hb)
      subst this
      rfl
    | succ n ih =>
      intro buf hb
      match hs : splitAtNewline buf with
      | none =>
        rw [processBuffer_eq_none hs, splitOnNl_not_mem (splitAtNewline_none hs)]
        rfl
      | some (l, r) =>
        obtain ⟨hbuf, hl⟩ := splitAtNewline_some hs
        have hlen := splitAtNewline_length hs
        rw [processBuffer_eq_some hs, ih r (by omega), hbuf, splitOnNl_line hl]
        have hne := splitOnNl_ne_nil r
        match hsr : splitOnNl r with
        | [] => exact absurd hsr hne
        | s :: ss =>
          simp only [initSegs, lastSeg, List.filterMap_cons]
          match hpl : processLine l with
          | none => simp
          | some j => simp
  exact H buf.length buf (Nat.le_refl _)

/-- Feeding a buffer in two pieces equals feeding it at once: the blocks
from the first piece come first, and the leftover of the first piece is
prepended to the second. -/
theorem processBuffer_append (x y : List Char) :
    processBuffer (x ++ y) =
      ((processBuffer x).1 ++ (processBuffer ((processBuffer x).2 ++ y)).1,
       (processBuffer ((processBuffer x).2 ++ y)).2) := by
  have H : ∀ n x, List.length x ≤ n → ∀ y, processBuffer (x ++ y) =
      ((processBuffer x).1 ++ (processBuffer ((processBuffer x).2 ++ y)).1,
       (processBuffer ((processBuffer x).2 ++ y)).2) := by
    intro n
    induction n with
    | zero =>
      intro x hx y
      have : x = [] := List.length_eq_zero.mp (Nat.le_zero.mp hx)
      subst this
      have h0 : processBuffer [] = ([], []) :=
        processBuffer_eq_none (splitAtNewline_of_not_mem (by simp))
      rw [h0]
      simp
    | succ n ih =>
      intro x hx y
      match hs : splitAtNewline x with
      | none =>
        rw [processBuffer_eq_none hs]
        simp
      | some (l, r) =>
        obtain ⟨hbuf, hl⟩ := splitAtNewline_some hs
        have hlen := splitAtNewline_length hs
        have hs2 : splitAtNewline (x ++ y) = some (l, r ++ y) := by
          rw [hbuf, List.append_assoc, List.cons_append]
          exact splitAtNewline_append hl
        rw [processBuffer_eq_some hs, processBuffer_eq_some hs2, ih r (by omega) y]
        simp [List.append_assoc]
  exact H x.length x (Nat.le_refl _) y

/-- Streaming chunks after an initial feed equals feeding everything at
once through the inner loop. -/
theorem runChunks_eq_processBuffer :
    ∀ (cs : List (List Char)) (x : List Char),
      (processBuffer x).1 ++ (runChunks (processBuffer x).2 cs).1
          = (processBuffer (x ++ cs.flatten)).1
        ∧ (runChunks (processBuffer x).2 cs).2 = (processBuffer (x ++ cs.flatten)).2 := by
  intro cs
  induction cs with
  | nil =>
    intro x
    simp [runChunks]
  | cons c cs ih =>
    intro x
    have hG := processBuffer_append (x ++ c) cs.flatten
    have hx := processBuffer_append x c
    obtain ⟨ih1, ih2⟩ := ih (x ++ c)
    constructor
    · calc (processBuffer x).1 ++ (runChunks (processBuffer x).2 (c :: cs)).1
          = (processBuffer x).1 ++
              ((processBuffer ((processBuffer x).2 ++ c)).1 ++
               (runChunks (processBuffer ((processBuffer x).2 ++ c)).2 cs).1) := by
            simp [runChunks]
        _ = ((processBuffer x).1 ++ (processBuffer ((processBuffer x).2 ++ c)).1) ++
              (runChunks (processBuffer ((processBuffer x).2 ++ c)).2 cs).1 := by
            rw [List.append_assoc]
        _ = (processBuffer (x ++ c)).1 ++
              (runChunks (processBuffer (x ++ c)).2 cs).1 := by
            rw [hx]
        _ = (processBuffer ((x ++ c) ++ cs.flatten)).1 := ih1
        _ = (processBuffer (x ++ (c :: cs).flatten)).1 := by
            rw [List.flatten_cons, ← List.append_assoc]
    · calc (runChunks (processBuffer x).2 (c :: cs)).2
          = (runChunks (processBuffer ((processBuffer x).2 ++ c)).2 cs).2 := by
            simp [runChunks]
        _ = (runChunks (processBuffer (x ++ c)).2 cs).2 := by rw [hx]
        _ = (processBuffer ((x ++ c) ++ cs.flatten)).2 := ih2
        _ = (processBuffer (x ++ (c :: cs).flatten)).2 := by
            rw [List.flatten_cons, ← List.append_assoc]

theorem runChunks_fst (cs : List (List Char)) :
    (runChunks [] cs).1 = (processBuffer cs.flatten).1 := by
  have h := runChunks_eq_processBuffer cs []
  have h0 : processBuffer [] = ([], []) :=
    processBuffer_eq_none (splitAtNewline_of_not_mem (by simp))
  rw [h0] at h
  simpa using h.1

theorem runChunks_snd (cs : List (List Char)) :
    (runChunks [] cs).2 = (processBuffer cs.flatten).2 := by
  have h := runChunks_eq_processBuffer cs []
  have h0 : processBuffer [] = ([], []) :=
    processBuffer_eq_none (splitAtNewline_of_not_mem (by simp))
  rw [h0] at h
  simpa using h.2

/-- A filterMap step expressed through Option.toList. -/
theorem filterMap_cons_toList {α β : Type} (f : α → Option β) (a : α) (l : List α) :
    (a :: l).filterMap f = (f a).toList ++ l.filterMap f := by
  match h : f a with
  | none => simp [List.filterMap_cons, h]
  | some b => simp [List.filterMap_cons, h]

/-- Master correctness of the streaming parser: however the model output is
chunked, the blocks handed to onProgress are exactly the per-line handler
results over all newline-separated segments of the whole stream text, in
order (the final flush accounting for the last segment). -/
theorem generateEmitted_eq_filterMap (chunks : List (List Char)) :
    generateEmitted chunks = (splitOnNl chunks.flatten).filterMap processLine := by
  unfold generateEmitted
  rw [runChunks_fst, runChunks_snd, processBuffer_splits]
  have hne := splitOnNl_ne_nil chunks.flatten
  calc (initSegs (splitOnNl chunks.flatten)).filterMap processLine ++
        (processLine (lastSeg (splitOnNl chunks.flatten))).toList
      = (initSegs (splitOnNl chunks.flatten)).filterMap processLine ++
        ([lastSeg (splitOnNl chunks.flatten)].filterMap processLine) := by
        rw [filterMap_cons_toList]; simp
    _ = (initSegs (splitOnNl chunks.flatten) ++ [lastSeg (splitOnNl chunks.flatten)]).filterMap
          processLine := by
        rw [List.filterMap_append]
    _ = (splitOnNl chunks.flatten).filterMap processLine := by
        rw [initSegs_append_lastSeg _ hne]

/-! ### Assembly facts -/

theorem foldl_appendBlock : ∀ (bs : List Json) (z : List Char),
    bs.foldl appendBlock z = z ++ bs.foldl appendBlock [] := by
  intro bs
  induction bs with
  | nil => simp
  | cons b bs ih =>
    intro z
    simp only [List.foldl_cons]
    rw [ih (appendBlock z b), ih (appendBlock [] b)]
    simp [appendBlock, List.append_assoc]

theorem assemble_cons (b : Json) (bs : List Json) :
    assemble (b :: bs) = srtBlock b ++ assemble bs := by
  simp only [assemble, List.foldl_cons]
  rw [foldl_appendBlock bs (appendBlock [] b)]
  simp [appendBlock]

theorem assemble_append (bs cs : List Json) :
    assemble (bs ++ cs) = assemble bs ++ assemble cs := by
  induction bs with
  | nil => simp [assemble]
  | cons b bs ih => simp [assemble_cons, ih, List.append_assoc]

theorem srtBlock_ne_nil (b : Json) : srtBlock b ≠ [] := by
  intro h
  have hlen := congrArg List.length h
  have h2 : ("\n\n".data : List Char).length = 2 := rfl
  simp only [srtBlock, List.length_append, h2, List.length_nil] at hlen
  omega

theorem assemble_eq_nil_iff (bs : List Json) : assemble bs = [] ↔ bs = [] := by
  match bs with
  | [] => simp [assemble]
  | b :: bs =>
    rw [assemble_cons]
    constructor
    · intro h
      exact absurd (List.append_eq_nil.mp h).1 (srtBlock_ne_nil b)
    · intro h
      exact absurd h (by simp)

/-! ### Heads of rendered numbers are never whitespace -/

theorem isJsWs_digitChar (m : Nat) : isJsWs (digitChar m) = false := by
  rcases m with _|_|_|_|_|_|_|_|_|_|m <;> rfl

theorem natDigitsAux_head : ∀ (f n : Nat) (acc : List Char),
    (acc = [] ∨ ∃ m t, acc = digitChar m :: t) →
    ∃ m t, natDigitsAux (f + 1) n acc = digitChar m :: t := by
  intro f
  induction f with
  | zero =>
    intro n acc hacc
    simp only [natDigitsAux]
    by_cases hn : n < 10
    · rw [if_pos hn]
      exact ⟨n, acc, rfl⟩
    · rw [if_neg hn]
      exact ⟨n % 10, acc, rfl⟩
  | succ f ih =>
    intro n acc hacc
    rw [show natDigitsAux (f + 1 + 1) n acc
        = if n < 10 then digitChar n :: acc
          else natDigitsAux (f + 1) (n / 10) (digitChar (n % 10) :: acc) from rfl]
    by_cases hn : n < 10
    · rw [if_pos hn]
      exact ⟨n, acc, rfl⟩
    · rw [if_neg hn]
      exact ih (n / 10) (digitChar (n % 10) :: acc) (Or.inr ⟨n % 10, acc, rfl⟩)

theorem natToDigits_head (n : Nat) : ∃ m t, natToDigits n = digitChar m :: t :=
  natDigitsAux_head n n [] (Or.inl rfl)

theorem numBody_head (m : Nat) (e : Int) :
    ∃ c t, numBody m e = c :: t ∧ isJsWs c = false := by
  unfold numBody
  by_cases he : 0 ≤ e
  · rw [if_pos he]
    obtain ⟨d, t, hd⟩ := natToDigits_head (m * 10 ^ e.toNat)
    exact ⟨digitChar d, t, hd, isJsWs_digitChar d⟩
  · rw [if_neg he]
    obtain ⟨d, t, hd⟩ := natToDigits_head m
    rw [hd]
    by_cases hf : (-e).toNat < (digitChar d :: t).length
    · rw [if_pos hf]
      have hk : (digitChar d :: t).length - (-e).toNat
          = ((digitChar d :: t).length - (-e).toNat - 1) + 1 := by
        simp only [List.length_cons] at hf ⊢
        omega
      rw [hk, List.take_succ_cons, List.cons_append]
      exact ⟨digitChar d, _, rfl, isJsWs_digitChar d⟩
    · rw [if_neg hf]
      exact ⟨'0', _, rfl, rfl⟩

theorem numToString_head (mant exp : Int) :
    ∃ c t, numToString mant exp = c :: t ∧ isJsWs c = false := by
  unfold numToString
  by_cases h0 : mant = 0
  · rw [if_pos h0]
    exact ⟨'0', [], rfl, rfl⟩
  · rw [if_neg h0]
    by_cases hneg : mant < 0
    · rw [if_pos hneg]
      exact ⟨'-', _, rfl, rfl⟩
    · rw [if_neg hneg]
      exact numBody_head _ _

/-! ### Trimming, validation and state facts -/

theorem trimChars_of_head {c : Char} {t : List Char} (hc : isJsWs c = false) :
    trimChars (c :: t) = trimEnd (c :: t) := by
  simp [trimChars, List.dropWhile_cons, hc]

theorem typeofNumber_some {o : Option Json} (h : typeofNumber o = true) :
    ∃ m e, o = some (.num m e) := by
  match o with
  | some (.num m e) => exact ⟨m, e, rfl⟩
  | some .null => simp [typeofNumber] at h
  | some (.bool _) => simp [typeofNumber] at h
  | some (.str _) => simp [typeofNumber] at h
  | some (.arr _) => simp [typeofNumber] at h
  | some (.obj _) => simp [typeofNumber] at h
  | none => simp [typeofNumber] at h

theorem srtBlock_head_of_valid {b : Json} (h : isValidBlock b = true) :
    ∃ c t, srtBlock b = c :: t ∧ isJsWs c = false := by
  have hid : typeofNumber (jsonGet b "id".data) = true := by
    simp only [isValidBlock, Bool.and_eq_true] at h
    exact h.1.1.1
  obtain ⟨m, e, ho⟩ := typeofNumber_some hid
  obtain ⟨c, t, hct, hws⟩ := numToString_head m e
  have hr : srtBlock b
      = jsDisplay (jsonGet b "id".data) ++
        ("\n".data ++ (jsDisplay (jsonGet b "startTime".data) ++
          (" --> ".data ++ (jsDisplay (jsonGet b "endTime".data) ++
            ("\n".data ++ (jsDisplay (jsonGet b "text".data) ++ "\n\n".data)))))) := by
    simp only [srtBlock, List.append_assoc]
  rw [ho, show jsDisplay (some (Json.num m e)) = numToString m e from rfl, hct,
    List.cons_append] at hr
  exact ⟨c, _, hr, hws⟩

theorem foldl_applyBlock (bs : List Json) (s : AppState) :
    bs.foldl applyBlock s = { s with srtContent := s.srtContent ++ assemble bs } := by
  induction bs generalizing s with
  | nil => simp [assemble]
  | cons b bs ih =>
    simp only [List.foldl_cons, ih, applyBlock, assemble_cons, List.append_assoc]

theorem parseJsonText_nil : parseJsonText [] = none := rfl

theorem processLine_eq_some_iff (l : List Char) (j : Json) :
    processLine l = some j ↔
      parseJsonText (trimChars l) = some j ∧ isValidBlock j = true := by
  unfold processLine
  by_cases h0 : trimChars l = []
  · rw [if_pos h0, h0, parseJsonText_nil]
    simp
  · rw [if_neg h0]
    match hp : parseJsonText (trimChars l) with
    | none => simp
    | some k =>
      dsimp only
      by_cases hv : isValidBlock k = true
      · rw [if_pos hv]
        constructor
        · intro h
          have := Option.some.injEq .. ▸ h
          exact ⟨h, by rw [← Option.some_inj.mp h]; exact hv⟩
        · intro h
          exact h.1
      · rw [if_neg hv]
        constructor
        · intro h
          simp at h
        · intro h
          have hk : k = j := Option.some_inj.mp h.1
          rw [hk] at hv
          exact absurd h.2 hv

theorem processLine_none_or_valid (l : List Char) :
    processLine l = none ∨ ∃ j, processLine l = some j ∧ isValidBlock j = true := by
  unfold processLine
  by_cases h0 : trimChars l = []
  · rw [if_pos h0]
    exact Or.inl rfl
  · rw [if_neg h0]
    match hp : parseJsonText (trimChars l) with
    | none => exact Or.inl rfl
    | some k =>
      dsimp only
      by_cases hv : isValidBlock k = true
      · rw [if_pos hv]
        exact Or.inr ⟨k, rfl, hv⟩
      · rw [if_neg hv]
        exact Or.inl rfl

/-! ### Concrete stream material used by the claims -/

/-- The record of the split-chunk scenario of the specification. -/
def helloLine : List Char :=
  "\x7b\"id\":1,\"startTime\":\"00:00:00,000\",\"endTime\":\"00:00:02,500\",\"text\":\"Hello\"\x7d".data

/-- The parsed block of helloLine. -/
def helloBlock : Json :=
  .obj [("id".data, .num 1 0),
        ("startTime".data, .str "00:00:00,000".data),
        ("endTime".data, .str "00:00:02,500".data),
        ("text".data, .str "Hello".data)]

/-- First chunk of the split-record scenario. -/
def helloChunk1 : List Char := "\x7b\"id\":1,\"star".data

/-- Second chunk of the split-record scenario, including the newline. -/
def helloChunk2 : List Char :=
  "tTime\":\"00:00:00,000\",\"endTime\":\"00:00:02,500\",\"text\":\"Hello\"\x7d\n".data

/-- A second record, to exercise order preservation. -/
def worldLine : List Char :=
  "\x7b\"id\":2,\"startTime\":\"00:00:02,500\",\"endTime\":\"00:00:05,000\",\"text\":\"World\"\x7d".data

/-- The parsed block of worldLine. -/
def worldBlock : Json :=
  .obj [("id".data, .num 2 0),
        ("startTime".data, .str "00:00:02,500".data),
        ("endTime".data, .str "00:00:05,000".data),
        ("text".data, .str "World".data)]

/-- The assembly example block of the specification. -/
def hiBlock : Json :=
  .obj [("id".data, .num 1 0),
        ("startTime".data, .str "00:00:00,000".data),
        ("endTime".data, .str "00:00:01,000".data),
        ("text".data, .str "Hi".data)]

/-- A record missing the required text field. -/
def missingTextLine : List Char :=
  "\x7b\"id\":3,\"startTime\":\"a\",\"endTime\":\"b\"\x7d".data

/-- A record with one field beyond the four required ones. -/
def extraFieldLine : List Char :=
  "\x7b\"id\":1,\"startTime\":\"a\",\"endTime\":\"b\",\"text\":\"c\",\"extra\":true\x7d".data

/-- A record whose id is zero. -/
def zeroIdLine : List Char :=
  "\x7b\"id\":0,\"startTime\":\"a\",\"endTime\":\"b\",\"text\":\"c\"\x7d".data

/-- A record whose id is negative. -/
def negIdLine : List Char :=
  "\x7b\"id\":-2,\"startTime\":\"a\",\"endTime\":\"b\",\"text\":\"c\"\x7d".data

/-- A record whose id is not an integer. -/
def fracIdLine : List Char :=
  "\x7b\"id\":1.5,\"startTime\":\"a\",\"endTime\":\"b\",\"text\":\"c\"\x7d".data

/-! ### The claims -/

/-- C1: for every input stream in which each JSON record arrives as a
single chunk terminated by a newline, the sequence of blocks passed to the
onProgress callback by generateSubtitles equals the sequence of valid
records in the stream, in arrival order, with no reordering, duplication,
or omission. -/
theorem claim_C1 (lines : List (List Char)) (h : ∀ l ∈ lines, '\n' ∉ l) :
    generateEmitted (lines.map (fun l => l ++ ['\n'])) = lines.filterMap processLine := by
  rw [generateEmitted_eq_filterMap]
  have key : ∀ ls : List (List Char), (∀ l ∈ ls, '\n' ∉ l) →
      splitOnNl ((ls.map (fun l => l ++ ['\n'])).flatten) = ls ++ [[]] := by
    intro ls
    induction ls with
    | nil => intro _; rfl
    | cons l ls ih =>
      intro hls
      have h1 : '\n' ∉ l := hls l (by simp)
      simp only [List.map_cons, List.flatten_cons, List.append_assoc,
        List.singleton_append]
      rw [splitOnNl_line h1, ih (fun x hx => hls x (by simp [hx]))]
      rfl
  have hnil : List.filterMap processLine [([] : List Char)] = [] := by
    rw [filterMap_cons_toList]
    simp [show processLine ([] : List Char) = none from rfl]
  rw [key lines h, List.filterMap_append, hnil, List.append_nil]

/-- Witness for C1 at a concrete three-line stream with a malformed middle
line: exactly the two valid records are delivered, in order. -/
theorem claim_C1_wit :
    (∀ l ∈ [helloLine, "NOT JSON".data, worldLine], '\n' ∉ l) ∧
    generateEmitted ([helloLine, "NOT JSON".data, worldLine].map (fun l => l ++ ['\n']))
      = [helloBlock, worldBlock] :=
  ⟨by decide, by rw [claim_C1 [helloLine, "NOT JSON".data, worldLine] (by decide)]; rfl⟩

/-- C2: for every stream in which a single valid JSON record is split
across two chunks at an arbitrary boundary, the parser invokes the callback
exactly once for that record, and only after both chunks have been
consumed. -/
theorem claim_C2 (line c1 c2 : List Char) (j : Json)
    (hsplit : c1 ++ c2 = line ++ ['\n']) (hc2 : c2 ≠ [])
    (hline : '\n' ∉ line) (hj : processLine line = some j) :
    (runChunks [] [c1]).1 = [] ∧ generateEmitted [c1, c2] = [j] := by
  have hlen : c1.length ≤ line.length := by
    have hL := congrArg List.length hsplit
    simp only [List.length_append, List.length_cons, List.length_nil] at hL
    have : 0 < c2.length := List.length_pos.mpr hc2
    omega
  have hc1 : '\n' ∉ c1 := by
    intro hm
    apply hline
    have htake : c1 = line.take c1.length := by
      have h1 : c1 = (c1 ++ c2).take c1.length := by
        rw [List.take_left]
      rw [hsplit, List.take_append_eq_append_take,
        show c1.length - line.length = 0 from by omega, List.take_zero,
        List.append_nil] at h1
      exact h1
    rw [htake] at hm
    exact List.take_subset _ _ hm
  constructor
  · have hpb : processBuffer c1 = ([], c1) :=
      processBuffer_eq_none (splitAtNewline_of_not_mem hc1)
    simp [runChunks, hpb]
  · rw [generateEmitted_eq_filterMap]
    have hfl : ([c1, c2] : List (List Char)).flatten = line ++ ['\n'] := by
      simp only [List.flatten_cons, List.flatten_nil, List.append_nil]
      exact hsplit
    rw [hfl, splitOnNl_line hline, show splitOnNl [] = [[]] from rfl,
      filterMap_cons_toList, hj, filterMap_cons_toList]
    simp [show processLine ([] : List Char) = none from rfl]

/-- Witness for C2 at the concrete split of the specification: nothing is
delivered after the first chunk, and exactly the one block after both. -/
theorem claim_C2_wit :
    (helloChunk1 ++ helloChunk2 = helloLine ++ ['\n'] ∧ helloChunk2 ≠ [] ∧
      '\n' ∉ helloLine ∧ processLine helloLine = some helloBlock) ∧
    ((runChunks [] [helloChunk1]).1 = [] ∧
      generateEmitted [helloChunk1, helloChunk2] = [helloBlock]) :=
  ⟨⟨by decide, by decide, by decide, rfl⟩,
    claim_C2 helloLine helloChunk1 helloChunk2 helloBlock
      (by decide) (by decide) (by decide) rfl⟩

/-- C3: after the stream ends, remaining buffer content goes through the
same parse-validate-dispatch logic exactly once, so a final valid record
without a trailing newline is still delivered to the callback exactly
once. -/
theorem claim_C3 :
    (∀ chunks, generateEmitted chunks
        = (runChunks [] chunks).1 ++ (processLine (runChunks [] chunks).2).toList) ∧
    (∀ chunks j, processLine (runChunks [] chunks).2 = some j →
      generateEmitted chunks = (runChunks [] chunks).1 ++ [j]) := by
  constructor
  · intro chunks
    rfl
  · intro chunks j h
    unfold generateEmitted
    rw [h]
    rfl

/-- Witness for C3 at a one-chunk stream whose record has no trailing
newline: the final flush delivers it once. -/
theorem claim_C3_wit :
    processLine (runChunks [] [helloLine]).2 = some helloBlock ∧
    generateEmitted [helloLine] = (runChunks [] [helloLine]).1 ++ [helloBlock] :=
  ⟨rfl, claim_C3.2 [helloLine] helloBlock rfl⟩

/-- C4: a line is forwarded exactly when it parses as JSON and the four
fields have the checked primitive types; a failing line (such as one
missing the text field) produces no callback and no error, and subsequent
lines are processed as if it were absent. -/
theorem claim_C4 :
    (∀ l j, processLine l = some j ↔
      (parseJsonText (trimChars l) = some j ∧ isValidBlock j = true)) ∧
    processLine missingTextLine = none ∧
    (∀ bad rest, '\n' ∉ bad → processLine bad = none →
      generateEmitted ((bad ++ ['\n']) :: rest) = generateEmitted rest) := by
  refine ⟨processLine_eq_some_iff, rfl, ?_⟩
  intro bad rest hb hnone
  rw [generateEmitted_eq_filterMap, generateEmitted_eq_filterMap]
  have hfl : ((bad ++ ['\n']) :: rest).flatten = bad ++ '\n' :: rest.flatten := by
    simp [List.flatten_cons, List.append_assoc]
  rw [hfl, splitOnNl_line hb, filterMap_cons_toList, hnone]
  simp

/-- Witness for C4: dropping a concrete malformed line leaves the emission
of the rest of the stream unchanged. -/
theorem claim_C4_wit :
    ('\n' ∉ "NOT JSON".data ∧ processLine "NOT JSON".data = none) ∧
    generateEmitted (("NOT JSON".data ++ ['\n']) :: [helloLine ++ ['\n']])
      = generateEmitted [helloLine ++ ['\n']] :=
  ⟨⟨by decide, rfl⟩,
    claim_C4.2.2 "NOT JSON".data [helloLine ++ ['\n']] (by decide) rfl⟩

/-- C5: each delivered block is serialized as the four lines id, startTime
arrow endTime, text and a blank line, appended to the accumulation, whose
export is the accumulation with trailing whitespace trimmed (the code
trims both ends, but an assembled accumulation never starts with
whitespace, so only trailing whitespace is removed); for the concrete
block the pre-trim serialization is exactly the specified string. -/
theorem claim_C5 :
    srtBlock hiBlock = "1\n00:00:00,000 --> 00:00:01,000\nHi\n\n".data ∧
    (∀ bs, bs ≠ [] → (∀ b ∈ bs, isValidBlock b = true) →
      handleDownload (assemble bs) = some (trimEnd (assemble bs))) := by
  constructor
  · rfl
  · intro bs hne hval
    match bs, hne with
    | b :: bs2, _ =>
      have hb := hval b (by simp)
      obtain ⟨c, t, hct, hws⟩ := srtBlock_head_of_valid hb
      have hassem : assemble (b :: bs2) = c :: (t ++ assemble bs2) := by
        rw [assemble_cons, hct, List.cons_append]
      rw [hassem]
      simp only [handleDownload, List.isEmpty_cons, Bool.false_eq_true, if_false]
      rw [trimChars_of_head hws]

/-- Witness for C5 at the one-block list of the specification. -/
theorem claim_C5_wit :
    (([hiBlock] : List Json) ≠ [] ∧ ∀ b ∈ [hiBlock], isValidBlock b = true) ∧
    handleDownload (assemble [hiBlock]) = some (trimEnd (assemble [hiBlock])) :=
  ⟨⟨by simp, by decide⟩, claim_C5.2 [hiBlock] (by simp) (by decide)⟩

/-- C6: assembly is pure append-only: appending a block yields the previous
accumulation followed by that block's serialization, prior content is
preserved as a prefix whatever the block ids, and the accumulated text is a
function of the block list alone, so assembling the same ordered list twice
yields the same text. -/
theorem claim_C6 :
    (∀ prev b, appendBlock prev b = prev ++ srtBlock b) ∧
    (∀ bs cs, assemble (bs ++ cs) = assemble bs ++ assemble cs) ∧
    (∀ bs b, assemble bs <+: assemble (bs ++ [b])) := by
  refine ⟨fun _ _ => rfl, assemble_append, ?_⟩
  intro bs b
  rw [assemble_append]
  exact ⟨assemble [b], rfl⟩

/-- C7: on a transport failure generateSubtitles surfaces exactly the one
generic failure, the blocks delivered before the failure are exactly the
ones drained from the seen chunks, and the orchestrator keeps them all
appended in the accumulated content: nothing is retracted. -/
theorem claim_C7 (cs : List (List Char)) :
    (generateSubtitlesRun (.fail cs)).2 = .error serviceFailureMsg ∧
    (generateSubtitlesRun (.fail cs)).1 = (runChunks [] cs).1 ∧
    (runGenerate (.fail cs)).error = some appFailureMsg ∧
    (runGenerate (.fail cs)).srtContent = assemble (generateSubtitlesRun (.fail cs)).1 := by
  refine ⟨rfl, rfl, rfl, ?_⟩
  show (applyFailure ((runChunks [] cs).1.foldl applyBlock startRunState)).srtContent
      = assemble (runChunks [] cs).1
  rw [foldl_applyBlock]
  simp [applyFailure, startRunState]

/-- C8 as amended: a failed run resets the progress indicators and sets the
single top-level error state, but the download button is disabled only when
no block was delivered before the failure; content delivered earlier keeps
the download available. -/
theorem claim_C8 (cs : List (List Char)) :
    (runGenerate (.fail cs)).progress = 0 ∧
    (runGenerate (.fail cs)).loadingMessage = [] ∧
    (runGenerate (.fail cs)).error = some appFailureMsg ∧
    (downloadVisible (runGenerate (.fail cs)) = true ↔ (runChunks [] cs).1 ≠ []) := by
  refine ⟨rfl, rfl, rfl, ?_⟩
  have hsrt : (runGenerate (.fail cs)).srtContent = assemble (runChunks [] cs).1 := by
    show (applyFailure ((runChunks [] cs).1.foldl applyBlock startRunState)).srtContent
        = assemble (runChunks [] cs).1
    rw [foldl_applyBlock]
    simp [applyFailure, startRunState]
  have hload : (runGenerate (.fail cs)).isLoading = false := rfl
  unfold downloadVisible
  rw [hsrt, hload]
  simp [List.isEmpty_iff, assemble_eq_nil_iff]

/-- Counterexample to C8 as stated: after a failing run that had already
delivered one block, the orchestrator is in the error state and yet the
download button is rendered, so the error state does not disable download
until a new run succeeds. -/
theorem claim_C8_cex :
    (runGenerate (.fail [helloLine ++ ['\n']])).error.isSome = true ∧
    downloadVisible (runGenerate (.fail [helloLine ++ ['\n']])) = true :=
  ⟨rfl, rfl⟩

/-- C9: validation is structural-minimum: a line whose object carries the
four fields with the checked types is forwarded even with an extra field,
and ids zero, negative or non-integer all pass; only the typeof checks gate
forwarding. -/
theorem claim_C9 :
    processLine extraFieldLine
      = some (.obj [("id".data, .num 1 0), ("startTime".data, .str "a".data),
          ("endTime".data, .str "b".data), ("text".data, .str "c".data),
          ("extra".data, .bool true)]) ∧
    processLine zeroIdLine
      = some (.obj [("id".data, .num 0 0), ("startTime".data, .str "a".data),
          ("endTime".data, .str "b".data), ("text".data, .str "c".data)]) ∧
    processLine negIdLine
      = some (.obj [("id".data, .num (-2) 0), ("startTime".data, .str "a".data),
          ("endTime".data, .str "b".data), ("text".data, .str "c".data)]) ∧
    processLine fracIdLine
      = some (.obj [("id".data, .num 15 (-1)), ("startTime".data, .str "a".data),
          ("endTime".data, .str "b".data), ("text".data, .str "c".data)]) :=
  ⟨rfl, rfl, rfl, rfl⟩

/-- C10: no single line can abort the stream: every line either yields one
validated block or is silently discarded (in particular JSON null and a
bare number are discarded), at most one callback happens per line, and the
loop drains every complete line of the buffer before awaiting more input. -/
theorem claim_C10 :
    (∀ l, processLine l = none ∨ ∃ j, processLine l = some j ∧ isValidBlock j = true) ∧
    (∀ l, (processLine l).toList.length ≤ 1) ∧
    processLine "null".data = none ∧
    processLine "5".data = none ∧
    (∀ buf, processBuffer buf =
      ((initSegs (splitOnNl buf)).filterMap processLine, lastSeg (splitOnNl buf))) := by
  refine ⟨processLine_none_or_valid, ?_, rfl, rfl, processBuffer_splits⟩
  intro l
  match processLine l with
  | none => simp
  | some j => simp
